import Mathlib

/-!
Verification of the size-string parsing core of mesabox
(`src/libmesabox/src/util/mod.rs`): the suffix decomposer
`parse_num_common`, its two public entry points `parse_num_with_suffix`
and `parse_obsolete_num`, and the overflow-checked binary exponentiator
`pow`.

Machine integers are modelled as `Nat` with explicit range checks against
`USIZE_MAX`; we take `usize` to be 64 bits wide (the width on the
project's target platforms).  Strings are modelled as `List Char`
(Rust `char`s are Unicode scalar values, as is Lean's `Char`).
-/

namespace Mesabox

/-- `usize::max_value()` on a 64-bit platform. -/
def USIZE_MAX : Nat := 2 ^ 64 - 1

/-- `const SUFFIXES: [char; 8] = ['K', 'M', 'G', 'T', 'P', 'E', 'Z', 'Y'];` -/
def SUFFIXES : List Char := ['K', 'M', 'G', 'T', 'P', 'E', 'Z', 'Y']

/-- `const OBSOLETE_SUFFIXES: [char; 2] = ['k', 'm'];` -/
def OBSOLETE_SUFFIXES : List Char := ['k', 'm']

/-- Rust's `usize::checked_mul`: the product, unless it exceeds `USIZE_MAX`. -/
def checked_mul (a b : Nat) : Option Nat :=
  if a * b ≤ USIZE_MAX then some (a * b) else none

/-- The `while exp > 1` loop of `pow`, plus the final `if exp == 1`
multiplication.  State: current `base`, current `exp`, accumulator `acc`. -/
def powLoop (base exp acc : Nat) : Option Nat :=
  if 1 < exp then
    (if exp % 2 = 1 then checked_mul acc base else some acc).bind fun acc1 =>
      (checked_mul base base).bind fun base1 =>
        powLoop base1 (exp / 2) acc1
  else if exp = 1 then
    checked_mul acc base
  else
    some acc
termination_by exp
decreasing_by exact Nat.div_lt_self (by omega) (by omega)

/-- `fn pow(mut base: usize, mut exp: u32) -> Option<usize>`:
binary exponentiation where every multiplication is overflow-checked. -/
def pow (base exp : Nat) : Option Nat :=
  powLoop base exp 1

/-- The `for (i, &suffix) in suffixes.iter().enumerate()` search inside
the scanning loop: the index of the first entry equal to `ch`, with `i`
the enumeration counter. -/
def suffixSearch : List Char → Char → Nat → Option Nat
  | [], _, _ => none
  | sfx :: rest, ch, i => if sfx = ch then some i else suffixSearch rest ch (i + 1)

/-- The suffix-scanning `loop` of `parse_num_common`, acting on the input's
characters in reverse order (the Rust code pulls from the back of a `Chars`
iterator).  Returns the still-reversed unconsumed remainder together with
the final `base` and `power`, or `none` when the iterator runs dry at the
top of the loop (the `?` on `chars.clone().rev().next()?`). -/
def scanLoop (suffixes : List Char) (obsolete : Bool) (found_si : Bool)
    (base power : Nat) : List Char → Option (List Char × Nat × Nat)
  | [] => none
  | ch :: rest =>
    if ch = 'b' ∧ found_si = false then
      -- base = 512, consume; legacy continues with the SI flag set,
      -- modern breaks out of the loop
      if obsolete then scanLoop suffixes obsolete true 512 power rest
      else some (rest, 512, power)
    else if ch = 'B' ∧ found_si = false ∧ obsolete = false then
      -- consume the SI marker and keep scanning
      scanLoop suffixes obsolete true base power rest
    else
      -- search the suffix table; in every case the outer loop breaks after
      match suffixSearch suffixes ch 0 with
      | some i => some (rest, if found_si then 1000 else 1024, i + 1)
      | none => some (ch :: rest, base, power)

/-- The digit-accumulation fold of `usize::from_str` (radix 10). -/
def decimalVal (l : List Char) : Nat :=
  l.foldl (fun acc c => acc * 10 + (c.toNat - '0'.toNat)) 0

/-- Rust's `usize::from_str`: an optional leading `'+'`, then a non-empty
run of ASCII decimal digits making up the whole string, whose value must
fit in `usize`; every per-digit multiply/add is overflow-checked, which
for radix 10 is equivalent to the final value fitting. -/
def usize_from_str (s : List Char) : Option Nat :=
  let digits := match s with
    | c :: rest => if c = '+' then rest else c :: rest
    | [] => []
  if digits.isEmpty then none
  else if digits.all (fun c => c.isDigit) then
    if decimalVal digits ≤ USIZE_MAX then some (decimalVal digits) else none
  else none

/-- `fn parse_num_common(s: &str, suffixes: &[char], obsolete: bool)
-> Option<usize>`: scan the suffix off the end, parse the remaining
prefix as a `usize`, and combine with one overflow-checked multiply by
`pow(base, power)`. -/
def parse_num_common (s : List Char) (suffixes : List Char)
    (obsolete : Bool) : Option Nat :=
  (scanLoop suffixes obsolete false 1 1 s.reverse).bind fun st =>
    (usize_from_str st.1.reverse).bind fun n =>
      (pow st.2.1 st.2.2).bind fun m =>
        checked_mul n m

/-- `pub fn parse_num_with_suffix(s: &str) -> Option<usize>` (modern mode). -/
def parse_num_with_suffix (s : String) : Option Nat :=
  parse_num_common s.data SUFFIXES false

/-- `pub fn parse_obsolete_num(s: &str) -> Option<usize>` (legacy mode). -/
def parse_obsolete_num (s : String) : Option Nat :=
  parse_num_common s.data OBSOLETE_SUFFIXES true

/-! ## Helper lemmas about the checked exponentiator -/

theorem checked_mul_def (a b : Nat) :
    checked_mul a b = if a * b ≤ USIZE_MAX then some (a * b) else none := rfl

theorem one_le_USIZE_MAX : 1 ≤ USIZE_MAX := by decide

/-- On a zero base and positive exponent, the loop returns `some 0`:
every intermediate product is `0` and never overflows. -/
theorem powLoop_zero (exp : Nat) :
    ∀ acc, 1 ≤ exp → acc ≤ USIZE_MAX → powLoop 0 exp acc = some 0 := by
  induction exp using Nat.strong_induction_on with
  | _ exp ih =>
    intro acc h1 hacc
    rw [powLoop]
    by_cases h2 : 1 < exp
    · rw [if_pos h2]
      have hdivlt : exp / 2 < exp := Nat.div_lt_self (by omega) (by omega)
      have hdiv1 : 1 ≤ exp / 2 := by omega
      by_cases hodd : exp % 2 = 1
      · rw [if_pos hodd]
        simp only [checked_mul, Nat.mul_zero, Nat.zero_mul,
          if_pos (Nat.zero_le USIZE_MAX), Option.some_bind]
        exact ih (exp / 2) hdivlt 0 hdiv1 (Nat.zero_le _)
      · rw [if_neg hodd]
        simp only [checked_mul, Nat.mul_zero, Nat.zero_mul,
          if_pos (Nat.zero_le USIZE_MAX), Option.some_bind]
        exact ih (exp / 2) hdivlt acc hdiv1 hacc
    · have hexp : exp = 1 := by omega
      subst hexp
      rw [if_neg h2, if_pos rfl]
      simp [checked_mul]

/-- Main loop invariant of the square-and-multiply loop: starting from a
positive base and a positive in-range accumulator, the loop returns
exactly the mathematical value `acc * base ^ exp` when that value is
representable, and `none` when it is not. -/
theorem powLoop_spec (exp : Nat) :
    ∀ base acc, 1 ≤ base → 1 ≤ acc → acc ≤ USIZE_MAX →
      powLoop base exp acc =
        if acc * base ^ exp ≤ USIZE_MAX then some (acc * base ^ exp)
        else none := by
  induction exp using Nat.strong_induction_on with
  | _ exp ih =>
    intro base acc hbase hacc haccM
    rw [powLoop]
    by_cases h2 : 1 < exp
    · rw [if_pos h2]
      have hdivlt : exp / 2 < exp := Nat.div_lt_self (by omega) (by omega)
      have hdiv1 : 1 ≤ exp / 2 := by omega
      have hsq : 1 ≤ base * base := Nat.one_le_iff_ne_zero.mpr (by positivity)
      -- base^2 is a lower bound for base^exp here (exp ≥ 2)
      have hpow2 : base * base ≤ base ^ exp := by
        calc base * base = base ^ 2 := by ring
          _ ≤ base ^ exp := Nat.pow_le_pow_right hbase (by omega)
      have hlow : base * base ≤ acc * base ^ exp := by
        calc base * base ≤ base ^ exp := hpow2
          _ = 1 * base ^ exp := (Nat.one_mul _).symm
          _ ≤ acc * base ^ exp := Nat.mul_le_mul_right _ hacc
      by_cases hodd : exp % 2 = 1
      · have hexp : exp = 2 * (exp / 2) + 1 := by omega
        rw [if_pos hodd]
        simp only [checked_mul]
        by_cases hab : acc * base ≤ USIZE_MAX
        · rw [if_pos hab]
          simp only [Option.some_bind]
          by_cases hbb : base * base ≤ USIZE_MAX
          · rw [if_pos hbb]
            simp only [Option.some_bind]
            rw [ih (exp / 2) hdivlt (base * base) (acc * base)
              hsq (Nat.one_le_iff_ne_zero.mpr (by positivity)) hab]
            have hval : acc * base * (base * base) ^ (exp / 2)
                = acc * base ^ exp := by
              conv_rhs => rw [hexp, pow_succ, pow_mul, pow_two]
              ring
            rw [hval]
          · rw [if_neg hbb]
            simp only [Option.none_bind]
            rw [if_neg (by omega)]
        · rw [if_neg hab]
          simp only [Option.none_bind]
          have : acc * base ≤ acc * base ^ exp :=
            Nat.mul_le_mul_left _ (Nat.le_self_pow (by omega) _)
          rw [if_neg (by omega)]
      · have hexp : exp = 2 * (exp / 2) := by omega
        rw [if_neg hodd]
        simp only [checked_mul, Option.some_bind]
        by_cases hbb : base * base ≤ USIZE_MAX
        · rw [if_pos hbb]
          simp only [Option.some_bind]
          rw [ih (exp / 2) hdivlt (base * base) acc hsq hacc haccM]
          have hval : acc * (base * base) ^ (exp / 2) = acc * base ^ exp := by
            conv_rhs => rw [hexp, pow_mul, pow_two]
          rw [hval]
        · rw [if_neg hbb]
          simp only [Option.none_bind]
          rw [if_neg (by omega)]
    · rw [if_neg h2]
      by_cases h1 : exp = 1
      · subst h1
        rw [if_pos rfl]
        simp [checked_mul]
      · have hexp : exp = 0 := by omega
        subst hexp
        rw [if_neg (by omega)]
        simp only [pow_zero, Nat.mul_one]
        rw [if_pos haccM]

/-- `pow` computes exactly `base ^ exp` when that value fits in `usize`
and fails otherwise. -/
theorem pow_spec (base exp : Nat) :
    pow base exp =
      if base ^ exp ≤ USIZE_MAX then some (base ^ exp) else none := by
  unfold pow
  by_cases hb : 1 ≤ base
  · have h := powLoop_spec exp base 1 hb (le_refl 1) one_le_USIZE_MAX
    simpa [Nat.one_mul] using h
  · have hb0 : base = 0 := by omega
    subst hb0
    cases exp with
    | zero =>
      rw [powLoop]
      norm_num
      exact one_le_USIZE_MAX
    | succ e =>
      rw [powLoop_zero (e + 1) 1 (by omega) one_le_USIZE_MAX]
      rw [if_pos (by simp [Nat.zero_pow])]
      simp [Nat.zero_pow]

/-! ## Helper lemmas about the suffix search and the numeric prefix -/

theorem suffixSearch_eq_none (l : List Char) (ch : Char) (i : Nat)
    (h : ch ∉ l) : suffixSearch l ch i = none := by
  induction l generalizing i with
  | nil => rfl
  | cons sfx rest ih =>
    have h1 : sfx ≠ ch := fun he => h (he ▸ List.mem_cons_self _ _)
    have h2 : ch ∉ rest := fun hm => h (List.mem_cons_of_mem _ hm)
    rw [suffixSearch, if_neg h1]
    exact ih (i + 1) h2

theorem suffixSearch_some_facts (l : List Char) (ch : Char) :
    ∀ i0 i, suffixSearch l ch i0 = some i →
      ch ∈ l ∧ i0 ≤ i ∧ i < i0 + l.length := by
  induction l with
  | nil => intro i0 i h; exact absurd h (by simp [suffixSearch])
  | cons sfx rest ih =>
    intro i0 i h
    rw [suffixSearch] at h
    by_cases hs : sfx = ch
    · rw [if_pos hs] at h
      obtain rfl : i0 = i := Option.some_injective _ h
      exact ⟨hs ▸ List.mem_cons_self _ _, le_refl _, by simp⟩
    · rw [if_neg hs] at h
      obtain ⟨hm, hle, hlt⟩ := ih (i0 + 1) i h
      exact ⟨List.mem_cons_of_mem _ hm, by omega, by simp; omega⟩

theorem usize_from_str_digits (l : List Char) (hne : l ≠ [])
    (hd : ∀ c ∈ l, c.isDigit = true) :
    usize_from_str l =
      if decimalVal l ≤ USIZE_MAX then some (decimalVal l) else none := by
  match l with
  | [] => exact absurd rfl hne
  | c :: t =>
    have hcp : c ≠ '+' := by
      intro he
      have := hd c (List.mem_cons_self _ _)
      rw [he] at this
      exact absurd this (by decide)
    rw [usize_from_str]
    simp only [if_neg hcp]
    rw [if_neg (by simp [List.isEmpty])]
    rw [if_pos (List.all_eq_true.mpr hd)]

theorem usize_from_str_minus (l : List Char) (h : ('-' : Char) ∈ l) :
    usize_from_str l = none := by
  match l with
  | [] => exact absurd h (by simp)
  | c :: t =>
    rw [usize_from_str]
    by_cases hc : c = '+'
    · simp only [if_pos hc]
      have hmt : ('-' : Char) ∈ t := by
        rcases List.mem_cons.mp h with he | hm
        · exact absurd (hc ▸ he.symm) (by decide)
        · exact hm
      rw [if_neg (by simp [List.isEmpty_iff]; exact List.ne_nil_of_mem hmt)]
      rw [if_neg ?hall]
      case hall =>
        intro hall
        have := List.all_eq_true.mp hall '-' hmt
        exact absurd this (by decide)
    · simp only [if_neg hc]
      rw [if_neg (by simp [List.isEmpty])]
      rw [if_neg ?hall2]
      case hall2 =>
        intro hall
        have := List.all_eq_true.mp hall '-' h
        exact absurd this (by decide)

/-! ## Helper lemmas about the scanning loop and `parse_num_common` -/

/-- `parse_num_common` with the exponentiator replaced by its
mathematical specification: scan the suffix, parse the prefix, and
succeed exactly when both `base ^ power` and the final product fit. -/
theorem parse_num_common_eval (s : List Char) (suffixes : List Char)
    (obsolete : Bool) :
    parse_num_common s suffixes obsolete =
      (scanLoop suffixes obsolete false 1 1 s.reverse).bind fun st =>
        (usize_from_str st.1.reverse).bind fun n =>
          if st.2.1 ^ st.2.2 ≤ USIZE_MAX then
            if n * st.2.1 ^ st.2.2 ≤ USIZE_MAX then
              some (n * st.2.1 ^ st.2.2)
            else none
          else none := by
  rw [parse_num_common]
  cases hscan : scanLoop suffixes obsolete false 1 1 s.reverse with
  | none => rfl
  | some st =>
    simp only [Option.some_bind]
    cases hn : usize_from_str st.1.reverse with
    | none => rfl
    | some n =>
      simp only [Option.some_bind]
      rw [pow_spec]
      by_cases hp : st.2.1 ^ st.2.2 ≤ USIZE_MAX
      · rw [if_pos hp, if_pos hp]
        simp only [Option.some_bind]
        rfl
      · rw [if_neg hp, if_neg hp]
        rfl

/-- When the last character of the input is a decimal digit (and the
suffix alphabet holds no digits), the scan consumes nothing and leaves
`base = 1`, `power = 1`. -/
theorem scanLoop_digit_head (suffixes : List Char) (obsolete : Bool)
    (hs : ∀ x ∈ suffixes, x.isDigit = false) (c : Char) (t : List Char)
    (hc : c.isDigit = true) :
    scanLoop suffixes obsolete false 1 1 (c :: t) = some (c :: t, 1, 1) := by
  have hcb : ¬(c = 'b' ∧ false = false) := by
    rintro ⟨he, -⟩
    rw [he] at hc
    exact absurd hc (by decide)
  have hcB : ¬(c = 'B' ∧ false = false ∧ obsolete = false) := by
    rintro ⟨he, -, -⟩
    rw [he] at hc
    exact absurd hc (by decide)
  have hmem : c ∉ suffixes := fun hm => by
    have := hs c hm
    rw [hc] at this
    exact absurd this (by decide)
  rw [scanLoop, if_neg hcb, if_neg hcB, suffixSearch_eq_none _ _ _ hmem]

/-- In modern mode, a trailing SI marker followed (in scan order) by a
digit: the marker is consumed, the flag is set, and the scan then stops
at the digit with `base` and `power` untouched. -/
theorem scanLoop_B_digit (suffixes : List Char)
    (hs : ∀ x ∈ suffixes, x.isDigit = false) (c : Char) (t : List Char)
    (hc : c.isDigit = true) :
    scanLoop suffixes false false 1 1 ('B' :: c :: t)
      = some (c :: t, 1, 1) := by
  rw [scanLoop, if_neg (by decide), if_pos ⟨rfl, rfl, rfl⟩]
  have hcb : ¬(c = 'b' ∧ (true : Bool) = false) := by
    rintro ⟨-, h⟩; cases h
  have hcB : ¬(c = 'B' ∧ (true : Bool) = false ∧ (false : Bool) = false) := by
    rintro ⟨-, h, -⟩; cases h
  have hmem : c ∉ suffixes := fun hm => by
    have := hs c hm
    rw [hc] at this
    exact absurd this (by decide)
  rw [scanLoop, if_neg hcb, if_neg hcB, suffixSearch_eq_none _ _ _ hmem]

/-- Full decomposition of a completed scan started in the initial state:
the consumed suffix `pre` has at most two characters, each a marker or a
magnitude letter; the produced `base` is one of the four documented
values; `power` stays within the alphabet's range; and `(base, power)`
is the identity `(1, 1)` exactly when nothing but the SI marker `'B'`
was consumed. -/
theorem scanLoop_decomp (suffixes : List Char) (obsolete : Bool)
    (hB : ('B' : Char) ∉ suffixes) :
    ∀ l rest : List Char, ∀ b p : Nat,
      scanLoop suffixes obsolete false 1 1 l = some (rest, b, p) →
      ∃ pre, l = pre ++ rest ∧ pre.length ≤ 2 ∧
        (∀ c ∈ pre, c = 'b' ∨ c = 'B' ∨ c ∈ suffixes) ∧
        (b = 1 ∨ b = 512 ∨ b = 1000 ∨ b = 1024) ∧
        1 ≤ p ∧ p ≤ max suffixes.length 1 ∧
        ((b = 1 ∧ p = 1) ↔ ∀ c ∈ pre, c = 'B') := by
  intro l rest b p h
  match l with
  | [] => exact absurd h (by rw [scanLoop]; simp)
  | ch :: t =>
    rw [scanLoop] at h
    by_cases h1 : ch = 'b' ∧ (false : Bool) = false
    · rw [if_pos h1] at h
      obtain ⟨rfl, -⟩ := h1
      by_cases hob : obsolete = true
      · rw [if_pos hob] at h
        match t with
        | [] => exact absurd h (by rw [scanLoop]; simp)
        | c2 :: t2 =>
          rw [scanLoop] at h
          rw [if_neg (by rintro ⟨-, h'⟩; cases h'),
            if_neg (by rintro ⟨-, h', -⟩; cases h')] at h
          cases hfind : suffixSearch suffixes c2 0 with
          | some i =>
            rw [hfind] at h
            simp only [if_pos rfl, Option.some.injEq, Prod.mk.injEq] at h
            obtain ⟨rfl, rfl, rfl⟩ := h
            obtain ⟨hmem, -, hlt⟩ :=
              suffixSearch_some_facts suffixes c2 0 i hfind
            refine ⟨['b', c2], by simp, by simp, ?_, ?_, ?_, ?_, ?_⟩
            · intro c hc
              rcases List.mem_cons.mp hc with rfl | hc
              · exact Or.inl rfl
              · rcases List.mem_cons.mp hc with rfl | hc
                · exact Or.inr (Or.inr hmem)
                · exact absurd hc (by simp)
            · exact Or.inr (Or.inr (Or.inl rfl))
            · omega
            · simp at hlt
              exact le_trans hlt (le_max_left _ _)
            · refine iff_of_false ?_ ?_
              · rintro ⟨h', -⟩; exact absurd h' (by decide)
              · intro hall
                exact absurd (hall 'b' (by simp)) (by decide)
          | none =>
            rw [hfind] at h
            simp only [Option.some.injEq, Prod.mk.injEq] at h
            obtain ⟨rfl, rfl, rfl⟩ := h
            refine ⟨['b'], by simp, by simp, ?_, ?_, ?_, ?_, ?_⟩
            · intro c hc
              rcases List.mem_cons.mp hc with rfl | hc
              · exact Or.inl rfl
              · exact absurd hc (by simp)
            · exact Or.inr (Or.inl rfl)
            · omega
            · exact le_max_right _ _
            · refine iff_of_false ?_ ?_
              · rintro ⟨h', -⟩; exact absurd h' (by decide)
              · intro hall
                exact absurd (hall 'b' (by simp)) (by decide)
      · rw [if_neg hob] at h
        simp only [Option.some.injEq, Prod.mk.injEq] at h
        obtain ⟨rfl, rfl, rfl⟩ := h
        refine ⟨['b'], by simp, by simp, ?_, ?_, ?_, ?_, ?_⟩
        · intro c hc
          rcases List.mem_cons.mp hc with rfl | hc
          · exact Or.inl rfl
          · exact absurd hc (by simp)
        · exact Or.inr (Or.inl rfl)
        · omega
        · exact le_max_right _ _
        · refine iff_of_false ?_ ?_
          · rintro ⟨h', -⟩; exact absurd h' (by decide)
          · intro hall
            exact absurd (hall 'b' (by simp)) (by decide)
    · rw [if_neg h1] at h
      by_cases h2 : ch = 'B' ∧ (false : Bool) = false ∧ obsolete = false
      · rw [if_pos h2] at h
        obtain ⟨rfl, -, -⟩ := h2
        match t with
        | [] => exact absurd h (by rw [scanLoop]; simp)
        | c2 :: t2 =>
          rw [scanLoop] at h
          rw [if_neg (by rintro ⟨-, h'⟩; cases h'),
            if_neg (by rintro ⟨-, h', -⟩; cases h')] at h
          cases hfind : suffixSearch suffixes c2 0 with
          | some i =>
            rw [hfind] at h
            simp only [if_pos rfl, Option.some.injEq, Prod.mk.injEq] at h
            obtain ⟨rfl, rfl, rfl⟩ := h
            obtain ⟨hmem, -, hlt⟩ :=
              suffixSearch_some_facts suffixes c2 0 i hfind
            refine ⟨['B', c2], by simp, by simp, ?_, ?_, ?_, ?_, ?_⟩
            · intro c hc
              rcases List.mem_cons.mp hc with rfl | hc
              · exact Or.inr (Or.inl rfl)
              · rcases List.mem_cons.mp hc with rfl | hc
                · exact Or.inr (Or.inr hmem)
                · exact absurd hc (by simp)
            · exact Or.inr (Or.inr (Or.inl rfl))
            · omega
            · simp at hlt
              exact le_trans hlt (le_max_left _ _)
            · refine iff_of_false ?_ ?_
              · rintro ⟨h', -⟩; exact absurd h' (by decide)
              · intro hall
                have hc2 : c2 = 'B' := hall c2 (by simp)
                exact hB (hc2 ▸ hmem)
          | none =>
            rw [hfind] at h
            simp only [Option.some.injEq, Prod.mk.injEq] at h
            obtain ⟨rfl, rfl, rfl⟩ := h
            refine ⟨['B'], by simp, by simp, ?_, ?_, ?_, ?_, ?_⟩
            · intro c hc
              rcases List.mem_cons.mp hc with rfl | hc
              · exact Or.inr (Or.inl rfl)
              · exact absurd hc (by simp)
            · exact Or.inl rfl
            · omega
            · exact le_max_right _ _
            · refine iff_of_true ⟨rfl, rfl⟩ ?_
              intro c hc
              rcases List.mem_cons.mp hc with rfl | hc
              · rfl
              · exact absurd hc (by simp)
      · rw [if_neg h2] at h
        cases hfind : suffixSearch suffixes ch 0 with
        | some i =>
          rw [hfind] at h
          simp only [Option.some.injEq, Prod.mk.injEq] at h
          obtain ⟨rfl, rfl, rfl⟩ := h
          obtain ⟨hmem, -, hlt⟩ :=
            suffixSearch_some_facts suffixes ch 0 i hfind
          refine ⟨[ch], by simp, by simp, ?_, ?_, ?_, ?_, ?_⟩
          · intro c hc
            rcases List.mem_cons.mp hc with rfl | hc
            · exact Or.inr (Or.inr hmem)
            · exact absurd hc (by simp)
          · exact Or.inr (Or.inr (Or.inr rfl))
          · omega
          · simp at hlt
            exact le_trans hlt (le_max_left _ _)
          · refine iff_of_false ?_ ?_
            · rintro ⟨h', -⟩; exact absurd h' (by decide)
            · intro hall
              have hch : ch = 'B' := hall ch (by simp)
              exact hB (hch ▸ hmem)
        | none =>
          rw [hfind] at h
          simp only [Option.some.injEq, Prod.mk.injEq] at h
          obtain ⟨rfl, rfl, rfl⟩ := h
          refine ⟨[], by simp, by simp, ?_, ?_, ?_, ?_, ?_⟩
          · intro c hc
            exact absurd hc (by simp)
          · exact Or.inl rfl
          · omega
          · exact le_max_right _ _
          · refine iff_of_true ⟨rfl, rfl⟩ ?_
            intro c hc
            exact absurd hc (by simp)

/-- Any input containing a `'-'` character is rejected by both parsers:
the scan never consumes `'-'`, so it survives into the numeric prefix,
where the integer parser rejects it. -/
theorem parse_minus_none (suffixes : List Char) (obsolete : Bool)
    (hB : ('B' : Char) ∉ suffixes) (hm : ('-' : Char) ∉ suffixes)
    (s : List Char) (h : ('-' : Char) ∈ s) :
    parse_num_common s suffixes obsolete = none := by
  rw [parse_num_common_eval]
  cases hscan : scanLoop suffixes obsolete false 1 1 s.reverse with
  | none => rfl
  | some st =>
    obtain ⟨rest, b, p⟩ := st
    obtain ⟨pre, hsplit, -, hpre, -⟩ :=
      scanLoop_decomp suffixes obsolete hB s.reverse rest b p hscan
    have hmem : ('-' : Char) ∈ rest := by
      have hrev : ('-' : Char) ∈ s.reverse := List.mem_reverse.mpr h
      rw [hsplit] at hrev
      rcases List.mem_append.mp hrev with hp | hr
      · rcases hpre '-' hp with h' | h' | h'
        · exact absurd h' (by decide)
        · exact absurd h' (by decide)
        · exact absurd h' hm
      · exact hr
    simp only [Option.some_bind]
    rw [usize_from_str_minus _ (List.mem_reverse.mpr hmem)]
    rfl

/-! ## The claims -/

/-- C1 (amended): in modern mode, `parse("1" + alphabet[i])` is
`some (1024 ^ (i+1))` and `parse("1" + alphabet[i] + "B")` is
`some (1000 ^ (i+1))` for those indices whose multiplier fits in a
64-bit `usize` (i ≤ 5); for `'Z'` and `'Y'` (i = 6, 7) the multiplier
`1024^7 / 1024^8` (resp. `1000^7 / 1000^8`) overflows and both forms
return `none`. -/
theorem C1_modern_magnitude_table :
    parse_num_with_suffix "1K" = some (1024 ^ 1) ∧
    parse_num_with_suffix "1M" = some (1024 ^ 2) ∧
    parse_num_with_suffix "1G" = some (1024 ^ 3) ∧
    parse_num_with_suffix "1T" = some (1024 ^ 4) ∧
    parse_num_with_suffix "1P" = some (1024 ^ 5) ∧
    parse_num_with_suffix "1E" = some (1024 ^ 6) ∧
    parse_num_with_suffix "1Z" = none ∧
    parse_num_with_suffix "1Y" = none ∧
    parse_num_with_suffix "1KB" = some (1000 ^ 1) ∧
    parse_num_with_suffix "1MB" = some (1000 ^ 2) ∧
    parse_num_with_suffix "1GB" = some (1000 ^ 3) ∧
    parse_num_with_suffix "1TB" = some (1000 ^ 4) ∧
    parse_num_with_suffix "1PB" = some (1000 ^ 5) ∧
    parse_num_with_suffix "1EB" = some (1000 ^ 6) ∧
    parse_num_with_suffix "1ZB" = none ∧
    parse_num_with_suffix "1YB" = none := by
  refine ⟨?_, ?_, ?_, ?_, ?_, ?_, ?_, ?_, ?_, ?_, ?_, ?_, ?_, ?_, ?_, ?_⟩ <;>
    (rw [parse_num_with_suffix, parse_num_common_eval]; decide)

/-- C1 counterexample: `parse("1Z")` is not `some (1024 ^ 7)` — the
multiplier `1024 ^ 7 = 2 ^ 70` overflows a 64-bit `usize`, so the claim
as stated fails at index 6 of the modern alphabet. -/
theorem C1_counterexample :
    parse_num_with_suffix "1Z" ≠ some (1024 ^ 7) := by
  rw [parse_num_with_suffix, parse_num_common_eval]; decide

/-- C2 (amended): a `'-'` anywhere in the input is rejected by both
parsers, but a leading `'+'` is accepted by the underlying integer
parser (`usize::from_str` allows an optional `+` sign), so
`parse("+1") = some 1` in both modes rather than `none`. -/
theorem C2_sign_handling :
    (∀ s : String, ('-' : Char) ∈ s.data →
      parse_num_with_suffix s = none ∧ parse_obsolete_num s = none) ∧
    parse_num_with_suffix "+1" = some 1 ∧
    parse_obsolete_num "+1" = some 1 := by
  refine ⟨fun s hs => ⟨?_, ?_⟩, ?_, ?_⟩
  · exact parse_minus_none SUFFIXES false (by decide) (by decide) s.data hs
  · exact parse_minus_none OBSOLETE_SUFFIXES true (by decide) (by decide) s.data hs
  · rw [parse_num_with_suffix, parse_num_common_eval]; decide
  · rw [parse_obsolete_num, parse_num_common_eval]; decide

/-- C2 counterexample: the claim asserts `parse_num_with_suffix("+1") =
none`, but the code accepts the `'+'` sign: the numeric prefix `"+1"`
parses to `1`. -/
theorem C2_counterexample : ¬ parse_num_with_suffix "+1" = none := by
  rw [parse_num_with_suffix, parse_num_common_eval]; decide

/-- C2 witness: instantiating the universal part at the concrete input
`"-1"`. -/
theorem C2_witness :
    parse_num_with_suffix "-1" = none ∧ parse_obsolete_num "-1" = none :=
  C2_sign_handling.1 "-1" (by decide)

/-- C3: legacy mode maps `"1k"` to 1024 and `"1m"` to 1024², and the
block-marker-then-magnitude path switches the base to decimal:
`"1kb"` parses to 1000. -/
theorem C3_legacy_suffixes :
    parse_obsolete_num "1k" = some 1024 ∧
    parse_obsolete_num "1m" = some 1048576 ∧
    parse_obsolete_num "1kb" = some 1000 := by
  refine ⟨?_, ?_, ?_⟩ <;>
    (rw [parse_obsolete_num, parse_num_common_eval]; decide)

/-- C4: in modern mode the block marker `'b'` yields base 512 and is
terminal — `"1b"` parses to 512, and `"1" + c + "b"` is unparsable for
every magnitude letter `c`, because the residual prefix `"1" + c` is not
a numeric literal. -/
theorem C4_modern_block_marker :
    parse_num_with_suffix "1b" = some 512 ∧
    ∀ c ∈ SUFFIXES, parse_num_with_suffix (String.mk ['1', c, 'b']) = none := by
  constructor
  · rw [parse_num_with_suffix, parse_num_common_eval]; decide
  · decide

/-- C4 witness: the universal part instantiated at `c = 'K'`. -/
theorem C4_witness :
    parse_num_with_suffix (String.mk ['1', 'K', 'b']) = none :=
  C4_modern_block_marker.2 'K' (by decide)

/-- C5: a pure digit string parses to its exact decimal value when that
value fits in `usize`, and to `none` when it exceeds `usize::MAX`;
in particular `"0"`, the decimal string of `usize::MAX`, and that string
with a further digit appended. -/
theorem C5_digit_identity :
    (∀ s : String, s.data ≠ [] → (∀ c ∈ s.data, c.isDigit = true) →
      parse_num_with_suffix s =
        if decimalVal s.data ≤ USIZE_MAX then some (decimalVal s.data)
        else none) ∧
    parse_num_with_suffix "0" = some 0 ∧
    parse_num_with_suffix "18446744073709551615" = some USIZE_MAX ∧
    parse_num_with_suffix "184467440737095516151" = none := by
  refine ⟨?_, ?_, ?_, ?_⟩
  · intro s hne hdig
    rw [parse_num_with_suffix, parse_num_common_eval]
    have hrne : s.data.reverse ≠ [] := by simpa using hne
    obtain ⟨c, t, hrev⟩ := List.exists_cons_of_ne_nil hrne
    have hcd : c.isDigit = true :=
      hdig c (List.mem_reverse.mp (hrev ▸ List.mem_cons_self c t))
    rw [hrev, scanLoop_digit_head SUFFIXES false (by decide) c t hcd]
    simp only [Option.some_bind]
    have hct : (c :: t).reverse = s.data := by
      rw [← hrev, List.reverse_reverse]
    rw [hct, usize_from_str_digits s.data hne hdig]
    by_cases hle : decimalVal s.data ≤ USIZE_MAX
    · rw [if_pos hle]
      simp only [Option.some_bind]
      rw [if_pos (by simpa using one_le_USIZE_MAX),
        if_pos (by simpa using hle)]
      simp
    · rw [if_neg hle]
      rfl
  · rw [parse_num_with_suffix, parse_num_common_eval]; decide
  · rw [parse_num_with_suffix, parse_num_common_eval]; decide
  · rw [parse_num_with_suffix, parse_num_common_eval]; decide

/-- C5 witness: the universal part instantiated at `"5"`. -/
theorem C5_witness :
    parse_num_with_suffix "5" =
      if decimalVal ("5" : String).data ≤ USIZE_MAX
      then some (decimalVal ("5" : String).data) else none :=
  C5_digit_identity.1 "5" (by decide) (by decide)

/-- C6: the checked exponentiator computes exactly `base ^ exp` when the
value is representable and fails otherwise; the listed boundary cases,
with `ceil(sqrt(usize::MAX)) = 2^32` justified by the last two
conjuncts. -/
theorem C6_pow_checked :
    (∀ b e : Nat, pow b e = if b ^ e ≤ USIZE_MAX then some (b ^ e) else none) ∧
    (∀ b : Nat, pow b 0 = some 1) ∧
    pow 2 16 = some 65536 ∧
    pow 256 2 = some 65536 ∧
    pow (2 ^ 32) 2 = none ∧
    pow (2 ^ 32 - 1) 2 = some ((2 ^ 32 - 1) * (2 ^ 32 - 1)) ∧
    (2 ^ 32 - 1) * (2 ^ 32 - 1) ≤ USIZE_MAX ∧
    USIZE_MAX < 2 ^ 32 * 2 ^ 32 := by
  refine ⟨pow_spec, ?_, ?_, ?_, ?_, ?_, by decide, by decide⟩
  · intro b
    rw [pow_spec, pow_zero, if_pos one_le_USIZE_MAX]
  · rw [pow_spec]; decide
  · rw [pow_spec]; decide
  · rw [pow_spec]; decide
  · rw [pow_spec]; decide

/-- C7: a bare magnitude letter, a magnitude-free suffix with no
digits, and an embedded space all fail, in both modes and for every
letter of the active alphabet; the empty string also fails. -/
theorem C7_bare_or_spaced_letters :
    parse_num_with_suffix "" = none ∧
    parse_obsolete_num "" = none ∧
    (∀ c ∈ SUFFIXES,
      parse_num_with_suffix (String.mk [c]) = none ∧
      parse_num_with_suffix (String.mk [c, 'B']) = none ∧
      parse_num_with_suffix (String.mk ['1', ' ', c]) = none) ∧
    (∀ c ∈ OBSOLETE_SUFFIXES,
      parse_obsolete_num (String.mk [c]) = none ∧
      parse_obsolete_num (String.mk [c, 'B']) = none ∧
      parse_obsolete_num (String.mk ['1', ' ', c]) = none) := by
  decide

/-- C7 witness: the bounded-universal parts instantiated at `'K'` and
`'k'`. -/
theorem C7_witness :
    (parse_num_with_suffix (String.mk ['K']) = none ∧
      parse_num_with_suffix (String.mk ['K', 'B']) = none ∧
      parse_num_with_suffix (String.mk ['1', ' ', 'K']) = none) ∧
    (parse_obsolete_num (String.mk ['k']) = none ∧
      parse_obsolete_num (String.mk ['k', 'B']) = none ∧
      parse_obsolete_num (String.mk ['1', ' ', 'k']) = none) :=
  ⟨C7_bare_or_spaced_letters.2.2.1 'K' (by decide),
   C7_bare_or_spaced_letters.2.2.2 'k' (by decide)⟩

/-- C8 (amended): a completed scan consumes at most two characters, the
resulting base is one of 1, 512, 1000, 1024 and the power lies in 1..8;
`(base, power) = (1, 1)` holds exactly when every consumed character is
the SI marker `'B'` (the original "exactly when nothing was consumed"
fails, because the SI marker alone is consumed without changing the
pair). -/
theorem C8_scan_invariants :
    (∀ l rest : List Char, ∀ b p : Nat,
      scanLoop SUFFIXES false false 1 1 l = some (rest, b, p) →
      ∃ pre, l = pre ++ rest ∧ pre.length ≤ 2 ∧
        (b = 1 ∨ b = 512 ∨ b = 1000 ∨ b = 1024) ∧ 1 ≤ p ∧ p ≤ 8 ∧
        ((b = 1 ∧ p = 1) ↔ ∀ c ∈ pre, c = 'B')) ∧
    (∀ l rest : List Char, ∀ b p : Nat,
      scanLoop OBSOLETE_SUFFIXES true false 1 1 l = some (rest, b, p) →
      ∃ pre, l = pre ++ rest ∧ pre.length ≤ 2 ∧
        (b = 1 ∨ b = 512 ∨ b = 1000 ∨ b = 1024) ∧ 1 ≤ p ∧ p ≤ 8 ∧
        ((b = 1 ∧ p = 1) ↔ ∀ c ∈ pre, c = 'B')) := by
  constructor
  · intro l rest b p h
    obtain ⟨pre, h1, h2, -, h4, h5, h6, h7⟩ :=
      scanLoop_decomp SUFFIXES false (by decide) l rest b p h
    have hlen : max SUFFIXES.length 1 = 8 := by decide
    exact ⟨pre, h1, h2, h4, h5, by omega, h7⟩
  · intro l rest b p h
    obtain ⟨pre, h1, h2, -, h4, h5, h6, h7⟩ :=
      scanLoop_decomp OBSOLETE_SUFFIXES true (by decide) l rest b p h
    have hlen : max OBSOLETE_SUFFIXES.length 1 = 2 := by decide
    exact ⟨pre, h1, h2, h4, h5, by omega, h7⟩

/-- C8 counterexample: on input `"1B"` (scanned right-to-left as
`['B', '1']`) the SI marker is consumed — one character of suffix — yet
the resulting pair is still the identity `(base, power) = (1, 1)`,
refuting "base = 1 and power = 1 exactly when no suffix character was
consumed". -/
theorem C8_counterexample :
    scanLoop SUFFIXES false false 1 1 ['B', '1'] = some (['1'], 1, 1) ∧
    (['B', '1'] : List Char) ≠ ['1'] := by
  decide

/-- C8 witness: the modern-mode part instantiated at the scan of
`"1K"` reversed. -/
theorem C8_witness :
    ∃ pre, ['K', '1'] = pre ++ ['1'] ∧ pre.length ≤ 2 ∧
      ((1024 : Nat) = 1 ∨ (1024 : Nat) = 512 ∨ (1024 : Nat) = 1000 ∨
        (1024 : Nat) = 1024) ∧
      1 ≤ 1 ∧ 1 ≤ 8 ∧
      (((1024 : Nat) = 1 ∧ (1 : Nat) = 1) ↔ ∀ c ∈ pre, c = 'B') :=
  C8_scan_invariants.1 ['K', '1'] ['1'] 1024 1 (by decide)

/-- C9: the embedding of all three routines is total (they are plain
functions into `Option`), and no successful result is ever wrapped,
truncated or saturated: `pow` only returns the exact mathematical power,
and both parsers only return values within `usize` range. -/
theorem C9_total_never_wraps :
    (∀ b e r : Nat, pow b e = some r → r = b ^ e ∧ r ≤ USIZE_MAX) ∧
    (∀ s : String, ∀ n : Nat, parse_num_with_suffix s = some n →
      n ≤ USIZE_MAX) ∧
    (∀ s : String, ∀ n : Nat, parse_obsolete_num s = some n →
      n ≤ USIZE_MAX) := by
  have hbound : ∀ (l sfx : List Char) (ob : Bool) (n : Nat),
      parse_num_common l sfx ob = some n → n ≤ USIZE_MAX := by
    intro l sfx ob n h
    rw [parse_num_common_eval] at h
    cases hscan : scanLoop sfx ob false 1 1 l.reverse with
    | none => rw [hscan] at h; exact absurd h (by simp)
    | some st =>
      rw [hscan] at h
      simp only [Option.some_bind] at h
      cases hn : usize_from_str st.1.reverse with
      | none => rw [hn] at h; exact absurd h (by simp)
      | some m =>
        rw [hn] at h
        simp only [Option.some_bind] at h
        by_cases h1 : st.2.1 ^ st.2.2 ≤ USIZE_MAX
        · rw [if_pos h1] at h
          by_cases h2 : m * st.2.1 ^ st.2.2 ≤ USIZE_MAX
          · rw [if_pos h2] at h
            injection h with h'
            omega
          · rw [if_neg h2] at h
            exact absurd h (by simp)
        · rw [if_neg h1] at h
          exact absurd h (by simp)
  refine ⟨?_, fun s n h => hbound s.data SUFFIXES false n h,
    fun s n h => hbound s.data OBSOLETE_SUFFIXES true n h⟩
  intro b e r h
  rw [pow_spec] at h
  by_cases h1 : b ^ e ≤ USIZE_MAX
  · rw [if_pos h1] at h
    injection h with h'
    exact ⟨h'.symm, h' ▸ h1⟩
  · rw [if_neg h1] at h
    exact absurd h (by simp)

/-- C9 witness: the `pow` part at `pow 2 16` and the parser part at
`"1"`. -/
theorem C9_witness :
    ((65536 : Nat) = 2 ^ 16 ∧ (65536 : Nat) ≤ USIZE_MAX) ∧
    (1 : Nat) ≤ USIZE_MAX :=
  ⟨C9_total_never_wraps.1 2 16 65536 (by rw [pow_spec]; decide),
   C9_total_never_wraps.2.1 "1" 1
     (by rw [parse_num_with_suffix, parse_num_common_eval]; decide)⟩

/-- C10: in modern mode a trailing SI marker `'B'` after a pure digit
string is consumed without any multiplicative effect: the parse returns
the digits' exact value. -/
theorem C10_trailing_si_identity :
    ∀ l : List Char, l ≠ [] → (∀ c ∈ l, c.isDigit = true) →
      decimalVal l ≤ USIZE_MAX →
      parse_num_with_suffix (String.mk (l ++ ['B'])) = some (decimalVal l) := by
  intro l hne hdig hle
  rw [parse_num_with_suffix]
  show parse_num_common (l ++ ['B']) SUFFIXES false = _
  rw [parse_num_common_eval]
  have hrev : (l ++ ['B']).reverse = 'B' :: l.reverse := by simp
  rw [hrev]
  obtain ⟨c, t, hct⟩ :=
    List.exists_cons_of_ne_nil (show l.reverse ≠ [] by simpa using hne)
  have hcd : c.isDigit = true :=
    hdig c (List.mem_reverse.mp (hct ▸ List.mem_cons_self c t))
  rw [hct, scanLoop_B_digit SUFFIXES (by decide) c t hcd]
  simp only [Option.some_bind]
  have hback : (c :: t).reverse = l := by rw [← hct, List.reverse_reverse]
  rw [hback, usize_from_str_digits l hne hdig, if_pos hle]
  simp only [Option.some_bind]
  rw [if_pos (by simpa using one_le_USIZE_MAX), if_pos (by simpa using hle)]
  simp

/-- C10 witness: instantiated at the digit string `"7"`, i.e. the input
`"7B"`. -/
theorem C10_witness :
    parse_num_with_suffix (String.mk (['7'] ++ ['B'])) = some (decimalVal ['7']) :=
  C10_trailing_si_identity ['7'] (by decide) (by decide) (by decide)

end Mesabox
